import Mathlib

/-
Verification of the character-stream decoding library (character_stream.rs,
character_iter.rs, error.rs).  Bytes are modelled as natural numbers below 256,
characters as Unicode scalar values (natural numbers).  The byte source
(a std::io::Read implementor) is modelled as a list of read events: `some b`
delivers the byte b, `none` is a read call that returns zero bytes.  An
in-memory source (Cursor) over a byte list bs is `bs.map some`.
-/

namespace CharStreamRs

/-- Kinds of std io ErrorKind values that the iterator distinguishes. -/
inductive IoKind where
  | interrupted
  | unexpectedEof
  | otherKind
deriving DecidableEq, Repr

/-- Model of the CharacterError enum from error.rs.  The io::Error and
anyhow::Error payloads are modelled by an IoKind and a message string. -/
inductive CharacterError where
  | noBytesRead
  | ioError (bytes : List Nat) (kind : IoKind)
  | other (bytes : List Nat) (msg : String)
deriving DecidableEq, Repr

/-- CharacterError::bytes from error.rs: the captured raw bytes, if any. -/
def CharacterError.bytes : CharacterError → Option (List Nat)
  | CharacterError.noBytesRead => none
  | CharacterError.other b _ => some b
  | CharacterError.ioError b _ => some b

deriving instance DecidableEq for Except

/-- CharacterStreamResult: a parsed character (scalar value) or an error. -/
abbrev CSResult := Except CharacterError Nat

/-- The byte source: a list of read events.  A some is a delivered byte, a
none is a read returning zero bytes.  List-backed sources never raise io
errors, matching the Cursor readers used by the library. -/
abbrev ByteEvents := List (Option Nat)

/-- The byte collection loop of read_bytes: take(amount).bytes() reads single
bytes until amount bytes were delivered or a read returns zero bytes. -/
def takeBytes : Nat → ByteEvents → List Nat × ByteEvents
  | 0, evts => ([], evts)
  | _ + 1, [] => ([], [])
  | _ + 1, none :: rest => ([], rest)
  | n + 1, some b :: rest =>
      let p := takeBytes n rest
      (b :: p.1, p.2)

/-- CharacterStream::read_bytes.  On a list-backed source no io error can
occur, so the IoError arm of the Rust code is unreachable here; the
zero-length and wrong-length checks are modelled exactly. -/
def readBytes (amount : Nat) (evts : ByteEvents) :
    Except CharacterError (List Nat) × ByteEvents :=
  let p := takeBytes amount evts
  if p.1.length = 0 then (Except.error CharacterError.noBytesRead, p.2)
  else if p.1.length ≠ amount then
    (Except.error (CharacterError.other p.1
      "Failed to read the specified amount of bytes."), p.2)
  else (Except.ok p.1, p.2)

/-- remaining_byte_count from character_stream.rs: continuation bytes implied
by a leading byte, none for an invalid leading byte. -/
def remaining_byte_count (byte : Nat) : Option Nat :=
  if byte >>> 7 = 0 then some 0
  else if byte >>> 5 = 6 then some 1
  else if byte >>> 4 = 14 then some 2
  else if byte >>> 3 = 30 then some 3
  else none

/-- Constraint on the first continuation byte of a three-byte sequence
(rules out overlong encodings and surrogates), per the UTF-8 standard as
implemented by String::from_utf8. -/
abbrev cont1ok3 (b c1 : Nat) : Prop :=
  (0x80 ≤ c1 ∧ c1 ≤ 0xBF) ∧ (b ≠ 0xE0 ∨ 0xA0 ≤ c1) ∧ (b ≠ 0xED ∨ c1 ≤ 0x9F)

/-- Constraint on the first continuation byte of a four-byte sequence
(rules out overlong encodings and values above U+10FFFF). -/
abbrev cont1ok4 (b c1 : Nat) : Prop :=
  (0x80 ≤ c1 ∧ c1 ≤ 0xBF) ∧ (b ≠ 0xF0 ∨ 0x90 ≤ c1) ∧ (b ≠ 0xF4 ∨ c1 ≤ 0x8F)

/-- One step of UTF-8 decoding, per the standard implemented by
String::from_utf8: returns the scalar value and the number of bytes
consumed, or none if no valid encoded character starts the list. -/
def utf8DecodeOne : List Nat → Option (Nat × Nat)
  | [] => none
  | b :: rest =>
    if b < 0x80 then some (b, 1)
    else if 0xC2 ≤ b ∧ b ≤ 0xDF then
      match rest with
      | c1 :: _ =>
        if 0x80 ≤ c1 ∧ c1 ≤ 0xBF then
          some ((b - 0xC0) * 64 + (c1 - 0x80), 2)
        else none
      | [] => none
    else if 0xE0 ≤ b ∧ b ≤ 0xEF then
      match rest with
      | c1 :: c2 :: _ =>
        if cont1ok3 b c1 ∧ 0x80 ≤ c2 ∧ c2 ≤ 0xBF then
          some ((b - 0xE0) * 4096 + (c1 - 0x80) * 64 + (c2 - 0x80), 3)
        else none
      | _ => none
    else if 0xF0 ≤ b ∧ b ≤ 0xF4 then
      match rest with
      | c1 :: c2 :: c3 :: _ =>
        if cont1ok4 b c1 ∧ 0x80 ≤ c2 ∧ c2 ≤ 0xBF ∧ 0x80 ≤ c3 ∧ c3 ≤ 0xBF then
          some ((b - 0xF0) * 0x40000 + (c1 - 0x80) * 4096 +
            (c2 - 0x80) * 64 + (c3 - 0x80), 4)
        else none
      | _ => none
    else none

/-- Length of the maximal invalid subpart at the head of an invalid list,
per the replacement policy of String::from_utf8_lossy (only consulted when
utf8DecodeOne fails). -/
def invalidLen : List Nat → Nat
  | [] => 1
  | b :: rest =>
    if 0xC2 ≤ b ∧ b ≤ 0xDF then 1
    else if 0xE0 ≤ b ∧ b ≤ 0xEF then
      match rest with
      | c1 :: _ => if cont1ok3 b c1 then 2 else 1
      | [] => 1
    else if 0xF0 ≤ b ∧ b ≤ 0xF4 then
      match rest with
      | c1 :: c2 :: _ =>
        if cont1ok4 b c1 then (if 0x80 ≤ c2 ∧ c2 ≤ 0xBF then 3 else 2) else 1
      | [c1] => if cont1ok4 b c1 then 2 else 1
      | [] => 1
    else 1

/-- Strict UTF-8 decoding of a whole byte list (String::from_utf8), with
explicit fuel; the length of the list is always enough fuel. -/
def utf8DecodeFuel : Nat → List Nat → Option (List Nat)
  | _, [] => some []
  | 0, _ :: _ => none
  | f + 1, b :: l =>
    match utf8DecodeOne (b :: l) with
    | some (c, k) => (utf8DecodeFuel f ((b :: l).drop k)).map fun cs => c :: cs
    | none => none

/-- String::from_utf8: the scalar values of a byte list, or none if invalid. -/
def utf8Decode (l : List Nat) : Option (List Nat) := utf8DecodeFuel l.length l

/-- Lossy UTF-8 decoding with fuel: each maximal invalid subpart becomes one
U+FFFD, per String::from_utf8_lossy. -/
def utf8LossyFuel : Nat → List Nat → List Nat
  | _, [] => []
  | 0, _ :: _ => []
  | f + 1, b :: l =>
    match utf8DecodeOne (b :: l) with
    | some (c, k) => c :: utf8LossyFuel f ((b :: l).drop k)
    | none => 0xFFFD :: utf8LossyFuel f ((b :: l).drop (invalidLen (b :: l)))

/-- String::from_utf8_lossy followed by chars().collect(). -/
def utf8DecodeLossy (l : List Nat) : List Nat := utf8LossyFuel l.length l

/-- The validation tail of read_char: decode the collected bytes (lossily or
strictly) and require exactly one character. -/
def validateChar (lossy : Bool) (bytes : List Nat) : CSResult :=
  let chars : Except CharacterError (List Nat) :=
    if lossy then Except.ok (utf8DecodeLossy bytes)
    else
      match utf8Decode bytes with
      | some cs => Except.ok cs
      | none => Except.error (CharacterError.other bytes "invalid utf-8 sequence")
  match chars with
  | Except.error e => Except.error e
  | Except.ok cs =>
    match cs with
    | [c] => Except.ok c
    | _ => Except.error (CharacterError.other bytes
        ("Expected 1 character, not " ++ toString cs.length))

/-- The continuation-byte stage of read_char: bytes.extend(read_bytes(rc)?)
followed by validation; a read error propagates with the stream advanced. -/
def readContBytes (lossy : Bool) (read_byte rc : Nat) (evts1 : ByteEvents) :
    CSResult × ByteEvents :=
  match readBytes rc evts1 with
  | (Except.error e, evts2) => (Except.error e, evts2)
  | (Except.ok cont, evts2) => (validateChar lossy (read_byte :: cont), evts2)

/-- The classification stage of read_char, after the leading byte was read:
dispatch on remaining_byte_count.  An invalid leading byte is U+FFFD in lossy
mode and an error in strict mode. -/
def readCharCont (lossy : Bool) (read_byte : Nat) (evts1 : ByteEvents) :
    CSResult × ByteEvents :=
  match remaining_byte_count read_byte with
  | some remaining_count =>
    if remaining_count = 0 then (validateChar lossy [read_byte], evts1)
    else readContBytes lossy read_byte remaining_count evts1
  | none =>
    if lossy then (Except.ok 0xFFFD, evts1)
    else (Except.error
      (CharacterError.other [read_byte] "Invalid starting byte"), evts1)

/-- CharacterStream::read_char: read a leading byte, read the implied
continuation bytes (errors propagate), validate. -/
def readChar (lossy : Bool) (evts : ByteEvents) : CSResult × ByteEvents :=
  match readBytes 1 evts with
  | (Except.error e, evts1) => (Except.error e, evts1)
  | (Except.ok bs, evts1) =>
    match bs with
    | [] => (Except.error CharacterError.noBytesRead, evts1)
    | read_byte :: _ => readCharCont lossy read_byte evts1

/-- A Unicode scalar value: below 0x110000 and not a surrogate. -/
abbrev ValidScalar (c : Nat) : Prop := c < 0x110000 ∧ (c < 0xD800 ∨ 0xDFFF < c)

/-- UTF-8 encoding of one scalar value. -/
def utf8EncodeChar (c : Nat) : List Nat :=
  if c < 0x80 then [c]
  else if c < 0x800 then [0xC0 + c / 64, 0x80 + c % 64]
  else if c < 0x10000 then
    [0xE0 + c / 4096, 0x80 + c / 64 % 64, 0x80 + c % 64]
  else
    [0xF0 + c / 0x40000, 0x80 + c / 4096 % 64, 0x80 + c / 64 % 64, 0x80 + c % 64]

/-- UTF-8 encoding of a text (list of scalar values). -/
def utf8Encode : List Nat → List Nat
  | [] => []
  | c :: cs => utf8EncodeChar c ++ utf8Encode cs

/-- Repeated read_char calls: collect up to n results, stopping at the clean
NoBytesRead exhaustion signal. -/
def iterateReads (fuel : Nat) (lossy : Bool) (evts : ByteEvents) : List CSResult :=
  match fuel with
  | 0 => []
  | n + 1 =>
    match readChar lossy evts with
    | (Except.error CharacterError.noBytesRead, _) => []
    | (r, evts1) => r :: iterateReads n lossy evts1

example : readChar true [some 0x80] = (Except.ok 0xFFFD, []) := by decide

example : readChar false ([0x61].map some) = (Except.ok 0x61, []) := by decide

example : readChar false ([0xE2, 0x82, 0xAC].map some) = (Except.ok 0x20AC, []) := by decide

example : readChar true ([0xC2, 0x41].map some) =
    (Except.error (CharacterError.other [0xC2, 0x41] "Expected 1 character, not 2"), []) := by
  decide

example : readChar false ([0xE2, 0x82].map some) =
    (Except.error (CharacterError.other [0x82]
      "Failed to read the specified amount of bytes."), []) := by decide

example : iterateReads 3 false ([0x61, 0x62, 0xE2, 0x82, 0xAC].map some) =
    [Except.ok 0x61, Except.ok 0x62, Except.ok 0x20AC] := by decide


/-! Supporting lemmas: reading exact byte runs and leading-byte classification. -/

theorem takeBytes_exact (l : List Nat) (evts : ByteEvents) :
    takeBytes l.length (l.map some ++ evts) = (l, evts) := by
  induction l with
  | nil => rfl
  | cons b t ih => simp [takeBytes, ih]

theorem readBytes_exact (l : List Nat) (evts : ByteEvents) (h : l ≠ []) :
    readBytes l.length (l.map some ++ evts) = (Except.ok l, evts) := by
  unfold readBytes
  rw [takeBytes_exact]
  simp [h]

theorem readBytes_one (b : Nat) (evts : ByteEvents) :
    readBytes 1 (some b :: evts) = (Except.ok [b], evts) := rfl

theorem rbc_lead1 (b : Nat) (h : b < 0x80) : remaining_byte_count b = some 0 := by
  have e7 : b >>> 7 = b / 128 := by rw [Nat.shiftRight_eq_div_pow]
  unfold remaining_byte_count
  rw [e7, if_pos (by omega)]

theorem rbc_lead2 (b : Nat) (h1 : 0xC0 ≤ b) (h2 : b ≤ 0xDF) :
    remaining_byte_count b = some 1 := by
  have e7 : b >>> 7 = b / 128 := by rw [Nat.shiftRight_eq_div_pow]
  have e5 : b >>> 5 = b / 32 := by rw [Nat.shiftRight_eq_div_pow]
  unfold remaining_byte_count
  rw [e7, e5, if_neg (by omega), if_pos (by omega)]

theorem rbc_lead3 (b : Nat) (h1 : 0xE0 ≤ b) (h2 : b ≤ 0xEF) :
    remaining_byte_count b = some 2 := by
  have e7 : b >>> 7 = b / 128 := by rw [Nat.shiftRight_eq_div_pow]
  have e5 : b >>> 5 = b / 32 := by rw [Nat.shiftRight_eq_div_pow]
  have e4 : b >>> 4 = b / 16 := by rw [Nat.shiftRight_eq_div_pow]
  unfold remaining_byte_count
  rw [e7, e5, e4, if_neg (by omega), if_neg (by omega), if_pos (by omega)]

theorem rbc_lead4 (b : Nat) (h1 : 0xF0 ≤ b) (h2 : b ≤ 0xF7) :
    remaining_byte_count b = some 3 := by
  have e7 : b >>> 7 = b / 128 := by rw [Nat.shiftRight_eq_div_pow]
  have e5 : b >>> 5 = b / 32 := by rw [Nat.shiftRight_eq_div_pow]
  have e4 : b >>> 4 = b / 16 := by rw [Nat.shiftRight_eq_div_pow]
  have e3 : b >>> 3 = b / 8 := by rw [Nat.shiftRight_eq_div_pow]
  unfold remaining_byte_count
  rw [e7, e5, e4, e3, if_neg (by omega), if_neg (by omega), if_neg (by omega),
    if_pos (by omega)]

/-! Decoding an encoded scalar value. -/

theorem utf8DecodeOne_encode (c : Nat) (h : ValidScalar c) (t : List Nat) :
    utf8DecodeOne (utf8EncodeChar c ++ t) = some (c, (utf8EncodeChar c).length) := by
  obtain ⟨hlt, hsur⟩ := h
  by_cases h1 : c < 0x80
  · simp only [utf8EncodeChar, if_pos h1, List.cons_append, List.nil_append,
      List.length_cons, List.length_nil]
    simp only [utf8DecodeOne, if_pos h1]
  · by_cases h2 : c < 0x800
    · simp only [utf8EncodeChar, if_neg h1, if_pos h2, List.cons_append,
        List.nil_append, List.length_cons, List.length_nil]
      simp only [utf8DecodeOne]
      rw [if_neg (by omega), if_pos (by omega), if_pos (by omega)]
      simp only [Option.some.injEq, Prod.mk.injEq]
      refine ⟨by omega, trivial⟩
    · by_cases h3 : c < 0x10000
      · simp only [utf8EncodeChar, if_neg h1, if_neg h2, if_pos h3,
          List.cons_append, List.nil_append, List.length_cons, List.length_nil]
        simp only [utf8DecodeOne]
        rw [if_neg (by omega), if_neg (by omega), if_pos (by omega),
          if_pos (by unfold cont1ok3; omega)]
        simp only [Option.some.injEq, Prod.mk.injEq]
        refine ⟨by omega, trivial⟩
      · simp only [utf8EncodeChar, if_neg h1, if_neg h2, if_neg h3,
          List.cons_append, List.nil_append, List.length_cons, List.length_nil]
        simp only [utf8DecodeOne]
        rw [if_neg (by omega), if_neg (by omega), if_neg (by omega),
          if_pos (by omega), if_pos (by unfold cont1ok4; omega)]
        simp only [Option.some.injEq, Prod.mk.injEq]
        refine ⟨by omega, trivial⟩

theorem utf8EncodeChar_ne_nil (c : Nat) : utf8EncodeChar c ≠ [] := by
  unfold utf8EncodeChar
  split_ifs <;> simp

theorem utf8DecodeFuel_step (f b : Nat) (l : List Nat) (c k : Nat)
    (hdec : utf8DecodeOne (b :: l) = some (c, k)) :
    utf8DecodeFuel (f + 1) (b :: l) =
      (utf8DecodeFuel f ((b :: l).drop k)).map fun cs => c :: cs := by
  simp only [utf8DecodeFuel]
  rw [hdec]

theorem utf8LossyFuel_step (f b : Nat) (l : List Nat) (c k : Nat)
    (hdec : utf8DecodeOne (b :: l) = some (c, k)) :
    utf8LossyFuel (f + 1) (b :: l) = c :: utf8LossyFuel f ((b :: l).drop k) := by
  simp only [utf8LossyFuel]
  rw [hdec]

theorem utf8DecodeFuel_encode (cs : List Nat) (h : ∀ c ∈ cs, ValidScalar c) :
    ∀ f, (utf8Encode cs).length ≤ f → utf8DecodeFuel f (utf8Encode cs) = some cs := by
  induction cs with
  | nil => intro f _; cases f <;> rfl
  | cons c cs ih =>
    intro f hf
    have hc : ValidScalar c := h c (by simp)
    have hrest : ∀ x ∈ cs, ValidScalar x := fun x hx => h x (by simp [hx])
    obtain ⟨b, l, hbl⟩ : ∃ b l, utf8EncodeChar c = b :: l := by
      cases hE : utf8EncodeChar c with
      | nil => exact absurd hE (utf8EncodeChar_ne_nil c)
      | cons b l => exact ⟨b, l, rfl⟩
    have hne : utf8Encode (c :: cs) = b :: (l ++ utf8Encode cs) := by
      show utf8EncodeChar c ++ utf8Encode cs = _
      rw [hbl, List.cons_append]
    obtain ⟨g, rfl⟩ : ∃ g, f = g + 1 := by
      have : 1 ≤ (utf8Encode (c :: cs)).length := by rw [hne]; simp
      exact ⟨f - 1, by omega⟩
    rw [hne]
    have hdec := utf8DecodeOne_encode c hc (utf8Encode cs)
    rw [hbl, List.cons_append, List.length_cons] at hdec
    rw [utf8DecodeFuel_step g b (l ++ utf8Encode cs) c (l.length + 1) hdec]
    have hdrop : (b :: (l ++ utf8Encode cs)).drop (l.length + 1) = utf8Encode cs := by
      rw [List.drop_succ_cons, List.drop_left]
    rw [hdrop, ih hrest g (by rw [hne] at hf; simp at hf; omega)]
    rfl

theorem utf8Decode_encode (cs : List Nat) (h : ∀ c ∈ cs, ValidScalar c) :
    utf8Decode (utf8Encode cs) = some cs :=
  utf8DecodeFuel_encode cs h _ le_rfl

theorem utf8Encode_single (c : Nat) : utf8Encode [c] = utf8EncodeChar c := by
  show utf8EncodeChar c ++ utf8Encode [] = _
  rw [show utf8Encode [] = [] from rfl, List.append_nil]

theorem utf8Decode_encodeChar (c : Nat) (h : ValidScalar c) :
    utf8Decode (utf8EncodeChar c) = some [c] := by
  have := utf8Decode_encode [c] (by intro x hx; simp at hx; subst hx; exact h)
  rwa [utf8Encode_single] at this

theorem utf8DecodeLossy_encodeChar (c : Nat) (h : ValidScalar c) :
    utf8DecodeLossy (utf8EncodeChar c) = [c] := by
  obtain ⟨b, l, hbl⟩ : ∃ b l, utf8EncodeChar c = b :: l := by
    cases hE : utf8EncodeChar c with
    | nil => exact absurd hE (utf8EncodeChar_ne_nil c)
    | cons b l => exact ⟨b, l, rfl⟩
  have hdec := utf8DecodeOne_encode c h []
  rw [List.append_nil, hbl, List.length_cons] at hdec
  unfold utf8DecodeLossy
  rw [hbl, List.length_cons]
  rw [utf8LossyFuel_step l.length b l c (l.length + 1) hdec]
  have hdrop : (b :: l).drop (l.length + 1) = [] := by
    rw [List.drop_succ_cons, List.drop_length]
  rw [hdrop]
  simp [utf8LossyFuel]

theorem validateChar_encode (c : Nat) (h : ValidScalar c) (lossy : Bool) :
    validateChar lossy (utf8EncodeChar c) = Except.ok c := by
  unfold validateChar
  cases lossy with
  | true => rw [if_pos rfl, utf8DecodeLossy_encodeChar c h]
  | false =>
    rw [if_neg (by simp), utf8Decode_encodeChar c h]


/-! Reduction lemmas for read_char and the round-trip theorem. -/

theorem readBytes_two (b1 b2 : Nat) (evts : ByteEvents) :
    readBytes 2 (some b1 :: some b2 :: evts) = (Except.ok [b1, b2], evts) := rfl

theorem readBytes_three (b1 b2 b3 : Nat) (evts : ByteEvents) :
    readBytes 3 (some b1 :: some b2 :: some b3 :: evts) =
      (Except.ok [b1, b2, b3], evts) := rfl

theorem readChar_nil (lossy : Bool) :
    readChar lossy [] = (Except.error CharacterError.noBytesRead, []) := rfl

theorem readChar_cons_none (lossy : Bool) (evts : ByteEvents) :
    readChar lossy (none :: evts) =
      (Except.error CharacterError.noBytesRead, evts) := rfl

theorem readChar_cons_some (lossy : Bool) (b : Nat) (evts : ByteEvents) :
    readChar lossy (some b :: evts) = readCharCont lossy b evts := rfl

theorem readCharCont_rc0 (lossy : Bool) (b : Nat) (evts : ByteEvents)
    (hb : remaining_byte_count b = some 0) :
    readCharCont lossy b evts = (validateChar lossy [b], evts) := by
  unfold readCharCont
  rw [hb]
  rfl

theorem readCharCont_rc (lossy : Bool) (b : Nat) (evts : ByteEvents) (rc : Nat)
    (hb : remaining_byte_count b = some rc) (hrc : rc ≠ 0) :
    readCharCont lossy b evts = readContBytes lossy b rc evts := by
  unfold readCharCont
  rw [hb]
  show (if rc = 0 then (validateChar lossy [b], evts)
    else readContBytes lossy b rc evts) = readContBytes lossy b rc evts
  rw [if_neg hrc]

theorem readCharCont_invalid (lossy : Bool) (b : Nat) (evts : ByteEvents)
    (hb : remaining_byte_count b = none) :
    readCharCont lossy b evts =
      (if lossy then (Except.ok 0xFFFD, evts)
       else (Except.error
         (CharacterError.other [b] "Invalid starting byte"), evts)) := by
  unfold readCharCont
  rw [hb]

theorem readContBytes_ok (lossy : Bool) (b rc : Nat) (evts1 evts2 : ByteEvents)
    (cont : List Nat) (h : readBytes rc evts1 = (Except.ok cont, evts2)) :
    readContBytes lossy b rc evts1 = (validateChar lossy (b :: cont), evts2) := by
  unfold readContBytes
  rw [h]

theorem readContBytes_err (lossy : Bool) (b rc : Nat) (evts1 evts2 : ByteEvents)
    (e : CharacterError) (h : readBytes rc evts1 = (Except.error e, evts2)) :
    readContBytes lossy b rc evts1 = (Except.error e, evts2) := by
  unfold readContBytes
  rw [h]

theorem readChar_encodeChar (c : Nat) (h : ValidScalar c) (lossy : Bool)
    (evts : ByteEvents) :
    readChar lossy ((utf8EncodeChar c).map some ++ evts) = (Except.ok c, evts) := by
  have hv := validateChar_encode c h lossy
  obtain ⟨hlt, hsur⟩ := h
  by_cases h1 : c < 0x80
  · have hEnc : utf8EncodeChar c = [c] := by
      unfold utf8EncodeChar
      rw [if_pos h1]
    rw [hEnc] at hv ⊢
    simp only [List.map_cons, List.map_nil, List.cons_append, List.nil_append]
    rw [readChar_cons_some, readCharCont_rc0 _ _ _ (rbc_lead1 _ h1), hv]
  · by_cases h2 : c < 0x800
    · have hEnc : utf8EncodeChar c = [0xC0 + c / 64, 0x80 + c % 64] := by
        unfold utf8EncodeChar
        rw [if_neg h1, if_pos h2]
      rw [hEnc] at hv ⊢
      simp only [List.map_cons, List.map_nil, List.cons_append, List.nil_append]
      rw [readChar_cons_some,
        readCharCont_rc _ _ _ 1 (rbc_lead2 _ (by omega) (by omega)) (by omega),
        readContBytes_ok _ _ _ _ _ _ (readBytes_one _ _), hv]
    · by_cases h3 : c < 0x10000
      · have hEnc : utf8EncodeChar c =
            [0xE0 + c / 4096, 0x80 + c / 64 % 64, 0x80 + c % 64] := by
          unfold utf8EncodeChar
          rw [if_neg h1, if_neg h2, if_pos h3]
        rw [hEnc] at hv ⊢
        simp only [List.map_cons, List.map_nil, List.cons_append, List.nil_append]
        rw [readChar_cons_some,
          readCharCont_rc _ _ _ 2 (rbc_lead3 _ (by omega) (by omega)) (by omega),
          readContBytes_ok _ _ _ _ _ _ (readBytes_two _ _ _), hv]
      · have hEnc : utf8EncodeChar c =
            [0xF0 + c / 0x40000, 0x80 + c / 4096 % 64,
             0x80 + c / 64 % 64, 0x80 + c % 64] := by
          unfold utf8EncodeChar
          rw [if_neg h1, if_neg h2, if_neg h3]
        rw [hEnc] at hv ⊢
        simp only [List.map_cons, List.map_nil, List.cons_append, List.nil_append]
        rw [readChar_cons_some,
          readCharCont_rc _ _ _ 3 (rbc_lead4 _ (by omega) (by omega)) (by omega),
          readContBytes_ok _ _ _ _ _ _ (readBytes_three _ _ _ _), hv]

theorem iterateReads_succ (n : Nat) (lossy : Bool) (evts : ByteEvents) :
    iterateReads (n + 1) lossy evts =
      match readChar lossy evts with
      | (Except.error CharacterError.noBytesRead, _) => []
      | (r, evts1) => r :: iterateReads n lossy evts1 := rfl

theorem iterateReads_step (n : Nat) (lossy : Bool) (evts evts1 : ByteEvents)
    (r : CSResult) (hr : readChar lossy evts = (r, evts1))
    (hne : r ≠ Except.error CharacterError.noBytesRead) :
    iterateReads (n + 1) lossy evts = r :: iterateReads n lossy evts1 := by
  rw [iterateReads_succ, hr]
  match r, hne with
  | Except.ok v, _ => rfl
  | Except.error CharacterError.noBytesRead, hne => exact absurd rfl hne
  | Except.error (CharacterError.ioError bs k), _ => rfl
  | Except.error (CharacterError.other bs m), _ => rfl

theorem iterateReads_encode (cs : List Nat) (h : ∀ c ∈ cs, ValidScalar c)
    (lossy : Bool) (evts : ByteEvents) :
    iterateReads cs.length lossy ((utf8Encode cs).map some ++ evts) =
      cs.map Except.ok := by
  induction cs generalizing evts with
  | nil => rfl
  | cons c cs ih =>
    have hc : ValidScalar c := h c (by simp)
    have hrest : ∀ x ∈ cs, ValidScalar x := fun x hx => h x (by simp [hx])
    have hsplit : (utf8Encode (c :: cs)).map some ++ evts =
        (utf8EncodeChar c).map some ++ ((utf8Encode cs).map some ++ evts) := by
      show (utf8EncodeChar c ++ utf8Encode cs).map some ++ evts = _
      rw [List.map_append, List.append_assoc]
    rw [List.length_cons, hsplit,
      iterateReads_step _ _ _ _ _ (readChar_encodeChar c hc lossy _) (by simp),
      ih hrest]
    rfl


/-- C1: for every byte sequence that is valid UTF-8 (the encoding of a text,
a list of Unicode scalar values), repeatedly calling read_char over that
sequence, in lossy or strict mode, yields in order exactly the scalar values
of the decoded text; the decoded text of the input is that text, so
concatenating the yielded characters (re-encoding them) reproduces the
original byte sequence exactly. -/
theorem c1_valid_utf8_roundtrip (cs : List Nat) (lossy : Bool)
    (h : ∀ c ∈ cs, ValidScalar c) :
    iterateReads cs.length lossy ((utf8Encode cs).map some) = cs.map Except.ok ∧
    utf8Decode (utf8Encode cs) = some cs := by
  constructor
  · have hit := iterateReads_encode cs h lossy []
    rwa [List.append_nil] at hit
  · exact utf8Decode_encode cs h

/-- Witness for c1_valid_utf8_roundtrip, on the text "ab€" whose encoding is
61 62 E2 82 AC. -/
theorem c1_valid_utf8_roundtrip_witness :
    (∀ c ∈ [0x61, 0x62, 0x20AC], ValidScalar c) ∧
    (iterateReads (List.length [0x61, 0x62, 0x20AC]) true
        ((utf8Encode [0x61, 0x62, 0x20AC]).map some) =
      [0x61, 0x62, 0x20AC].map Except.ok ∧
      utf8Decode (utf8Encode [0x61, 0x62, 0x20AC]) = some [0x61, 0x62, 0x20AC]) :=
  ⟨by decide, c1_valid_utf8_roundtrip [0x61, 0x62, 0x20AC] true (by decide)⟩

/-- C2 counterexample: in lossy mode, the input C2 41 (an invalid leading
pair: C2 starts a two-byte sequence but 41 is not a continuation byte) makes
read_char return a decode error, not U+FFFD: from_utf8_lossy turns the two
collected bytes into the two characters U+FFFD, U+0041, and the
one-character check fails.  The error is not the NoBytesRead exhaustion
signal, refuting the claim that lossy mode never returns a decode error. -/
theorem c2_lossy_error_counterexample :
    readChar true ([0xC2, 0x41].map some) =
      (Except.error
        (CharacterError.other [0xC2, 0x41] "Expected 1 character, not 2"), []) ∧
    CharacterError.other [0xC2, 0x41] "Expected 1 character, not 2" ≠
      CharacterError.noBytesRead := by
  refine ⟨by decide, by decide⟩

/-- C2 (amended): in lossy mode an invalid leading byte never produces an
error: read_char consumes that single byte and returns exactly one U+FFFD.
Sequences with a valid leading byte but invalid or missing continuation
bytes still return decode errors even in lossy mode. -/
theorem c2_lossy_invalid_lead (b : Nat) (evts : ByteEvents)
    (h : remaining_byte_count b = none) :
    readChar true (some b :: evts) = (Except.ok 0xFFFD, evts) := by
  rw [readChar_cons_some, readCharCont_invalid true b evts h]
  rfl

/-- Witness for c2_lossy_invalid_lead at the invalid leading byte FF. -/
theorem c2_lossy_invalid_lead_witness :
    remaining_byte_count 0xFF = none ∧
    readChar true [some 0xFF, some 0x61] = (Except.ok 0xFFFD, [some 0x61]) :=
  ⟨by decide, c2_lossy_invalid_lead 0xFF [some 0x61] (by decide)⟩

/-- C3 counterexample: in strict mode, the truncated input E2 82 (the whole
input is one offending invalid subsequence) yields a decode error whose
captured bytes are only 82: the error is raised inside read_bytes while
collecting continuation bytes, and the leading byte E2 is not included, so
the captured bytes are not the offending subsequence E2 82. -/
theorem c3_strict_bytes_counterexample :
    readChar false ([0xE2, 0x82].map some) =
      (Except.error (CharacterError.other [0x82]
        "Failed to read the specified amount of bytes."), []) ∧
    (CharacterError.other [0x82]
        "Failed to read the specified amount of bytes.").bytes = some [0x82] ∧
    ([0x82] : List Nat) ≠ [0xE2, 0x82] := by
  refine ⟨by decide, by decide, by decide⟩

/-- C3 (amended): in strict mode an invalid leading byte yields a decode
error whose captured bytes are exactly that single offending byte.  For
sequences with a valid leading byte, the captured bytes are the bytes
collected by the failing stage instead: the full collected sequence when
validation fails, and only the continuation bytes actually read when the
input is truncated. -/
theorem c3_strict_invalid_lead (b : Nat) (evts : ByteEvents)
    (h : remaining_byte_count b = none) :
    readChar false (some b :: evts) =
      (Except.error (CharacterError.other [b] "Invalid starting byte"), evts) ∧
    (CharacterError.other [b] "Invalid starting byte").bytes = some [b] := by
  constructor
  · rw [readChar_cons_some, readCharCont_invalid false b evts h]
    rfl
  · rfl

/-- Witness for c3_strict_invalid_lead at the invalid leading byte 80. -/
theorem c3_strict_invalid_lead_witness :
    remaining_byte_count 0x80 = none ∧
    (readChar false [some 0x80] =
      (Except.error (CharacterError.other [0x80] "Invalid starting byte"), []) ∧
    (CharacterError.other [0x80] "Invalid starting byte").bytes = some [0x80]) :=
  ⟨by decide, c3_strict_invalid_lead 0x80 [] (by decide)⟩


/-! The peek layer: PeekableCharacterStream over a CharacterStream, with a
result queue and a cursor.  The single-peek and multi-peek disciplines share
the state (the Rust structure is one type with a phantom marker). -/

/-- State of a PeekableCharacterStream: the decoded-but-unconsumed result
queue (buffer), the multi-peek cursor (position), and the inner
CharacterStream (is_lossy flag and remaining byte source). -/
structure PState where
  buffer : List CSResult
  position : Nat
  evts : ByteEvents
  lossy : Bool
deriving DecidableEq, Repr

/-- PeekableCharacterStream::new: empty queue, cursor 0. -/
def initP (lossy : Bool) (evts : ByteEvents) : PState :=
  { buffer := [], position := 0, evts := evts, lossy := lossy }

/-- A read_char on the inner CharacterStream, threading the byte source. -/
def streamRead (s : PState) : CSResult × PState :=
  let p := readChar s.lossy s.evts
  (p.1, { s with evts := p.2 })

/-- PeekableCharacterStream::_read_char: pop the queue front, else decode
from the inner stream. -/
def popRead (s : PState) : CSResult × PState :=
  match s.buffer with
  | r :: rest => (r, { s with buffer := rest })
  | [] => streamRead s

/-- CharStream::read_char for the single-peek stream: _read_char. -/
def readCharP (s : PState) : CSResult × PState := popRead s

/-- Peekable::peek for the single-peek stream: serve the cached result when
the queue holds exactly one, else read a result, push it, and serve the
queue front. -/
def peekP (s : PState) : Option CSResult × PState :=
  if s.buffer.length = 1 then (s.buffer.head?, s)
  else
    let p := readCharP s
    let s1 := { p.2 with buffer := p.2.buffer ++ [p.1] }
    (s1.buffer.head?, s1)

/-- MultiPeekable::peek.  Serve the queue at the cursor when in range, else
decode one fresh result: the NoBytesRead error gives None, any other result
is pushed and the queue is indexed at the cursor.  The cursor advances in
every non-panicking outcome; an out-of-bounds queue index is a Rust panic,
modelled as the outer none. -/
def peekM (s : PState) : Option (Option CSResult × PState) :=
  if s.position < s.buffer.length then
    some (some (s.buffer.getD s.position (Except.error CharacterError.noBytesRead)),
      { s with position := s.position + 1 })
  else if (streamRead s).1 = Except.error CharacterError.noBytesRead then
    some (none, { (streamRead s).2 with position := s.position + 1 })
  else
    if s.position < ((streamRead s).2.buffer ++ [(streamRead s).1]).length then
      some (some (((streamRead s).2.buffer ++ [(streamRead s).1]).getD
          s.position (Except.error CharacterError.noBytesRead)),
        { (streamRead s).2 with
            buffer := (streamRead s).2.buffer ++ [(streamRead s).1],
            position := s.position + 1 })
    else none

/-- MultiPeekable::reset_peek: rewind the cursor to the consumption point. -/
def reset_peek (s : PState) : PState := { s with position := 0 }

/-- CharStream::read_char for the multi-peek stream: reset the cursor, then
_read_char. -/
def readCharM (s : PState) : CSResult × PState := popRead (reset_peek s)

/-- The result of the n+1st of a run of consecutive single-peek calls. -/
def peekPN : Nat → PState → Option CSResult × PState
  | 0, s => peekP s
  | n + 1, s => peekPN n (peekP s).2

/-- n consecutive multi-peek calls, collecting the returned results; none if
any call panics. -/
def peekMN : Nat → PState → Option (List (Option CSResult) × PState)
  | 0, s => some ([], s)
  | n + 1, s =>
    (peekM s).bind fun p => (peekMN n p.2).map fun q => (p.1 :: q.1, q.2)

/-- A public call on the single-peek stream. -/
inductive POp where
  | peekOp
  | readOp
deriving DecidableEq, Repr

/-- Apply one public call to a single-peek stream state. -/
def applyP : POp → PState → PState
  | POp.peekOp, s => (peekP s).2
  | POp.readOp, s => (readCharP s).2

/-- Run a sequence of public calls on a single-peek stream state. -/
def runP : List POp → PState → PState
  | [], s => s
  | op :: ops, s => runP ops (applyP op s)


/-! Single-peek and multi-peek properties. -/

theorem peekPN_fix (r : CSResult) (s1 : PState) (h1 : peekP s1 = (some r, s1)) :
    ∀ n, peekPN n s1 = (some r, s1) := by
  intro n
  induction n with
  | zero => show peekP s1 = (some r, s1); exact h1
  | succ n ih =>
    show peekPN n (peekP s1).2 = (some r, s1)
    rw [h1]
    exact ih

/-- C6: on a single-peek stream whose queue is in its reachable regime (at
most one cached result), a first peek returns some result r and a state s1;
every run of further consecutive peeks keeps returning (some r, s1)
unchanged, and a subsequent read_char returns exactly r, merely draining the
queue: the byte source of s1 is untouched, so the buffered result is not
re-decoded. -/
theorem c6_single_peek (s : PState) (hlen : s.buffer.length ≤ 1)
    (r0 : Option CSResult) (s1 : PState) (hp : peekP s = (r0, s1)) :
    ∃ r, r0 = some r ∧ (∀ n, peekPN n s = (some r, s1)) ∧
      readCharP s1 = (r, { s1 with buffer := [] }) := by
  rcases s with ⟨buf, pos, ev, lo⟩
  cases buf with
  | nil =>
    rcases hq : readChar lo ev with ⟨r, ev2⟩
    have hp1 : peekP ⟨[], pos, ev, lo⟩ = (some r, ⟨[r], pos, ev2, lo⟩) := by
      simp [peekP, readCharP, popRead, streamRead, hq]
    rw [hp1] at hp
    injection hp with ha hb
    subst hb
    have hfix : peekP ⟨[r], pos, ev2, lo⟩ = (some r, ⟨[r], pos, ev2, lo⟩) := by
      simp [peekP]
    refine ⟨r, ha.symm, ?_, ?_⟩
    · intro n
      cases n with
      | zero => show peekP _ = _; exact hp1
      | succ n =>
        show peekPN n (peekP ⟨[], pos, ev, lo⟩).2 = _
        rw [hp1]
        exact peekPN_fix r _ hfix n
    · simp [readCharP, popRead]
  | cons b rest =>
    cases rest with
    | nil =>
      have hp1 : peekP ⟨[b], pos, ev, lo⟩ = (some b, ⟨[b], pos, ev, lo⟩) := by
        simp [peekP]
      rw [hp1] at hp
      injection hp with ha hb
      subst hb
      refine ⟨b, ha.symm, ?_, ?_⟩
      · intro n
        cases n with
        | zero => show peekP _ = _; exact hp1
        | succ n =>
          show peekPN n (peekP ⟨[b], pos, ev, lo⟩).2 = _
          rw [hp1]
          exact peekPN_fix b _ hp1 n
      · simp [readCharP, popRead]
    | cons b2 rest2 =>
      simp only [List.length_cons] at hlen
      omega

/-- Witness for c6_single_peek on a fresh single-peek stream over the byte
61: the peek decodes the character a, repeated peeks are stable, and the
read_char consumes it without touching the exhausted source. -/
theorem c6_single_peek_witness :
    (initP false [some 0x61]).buffer.length ≤ 1 ∧
    peekP (initP false [some 0x61]) = (some (Except.ok 0x61),
      { buffer := [Except.ok 0x61], position := 0, evts := [], lossy := false }) ∧
    (∃ r, (some (Except.ok 0x61) : Option CSResult) = some r ∧
      (∀ n, peekPN n (initP false [some 0x61]) = (some r,
        { buffer := [Except.ok 0x61], position := 0, evts := [], lossy := false })) ∧
      readCharP
          { buffer := [Except.ok 0x61], position := 0, evts := [], lossy := false } =
        (r, { buffer := [], position := 0, evts := [], lossy := false })) :=
  ⟨by decide, by decide,
    c6_single_peek (initP false [some 0x61]) (by decide) (some (Except.ok 0x61))
      { buffer := [Except.ok 0x61], position := 0, evts := [], lossy := false }
      (by decide)⟩

/-- C9: the multi-peek cursor advances past the queue end on a None peek, and
the queue indexing in peek is then out of bounds.  Concretely, over a source
whose first read returns zero bytes and whose second delivers the byte 61
(allowed for a std io Read implementor), the first peek returns None with
cursor 1 over an empty queue, and the second peek reaches the index 1 of the
one-element queue: a panic, reachable through the public interface with no
reset_peek or read_char call. -/
theorem c9_multi_peek_panic :
    peekMN 1 (initP false [none, some 0x61]) =
      some ([none],
        { buffer := [], position := 1, evts := [some 0x61], lossy := false }) ∧
    (1 : Nat) > List.length ([] : List CSResult) ∧
    peekMN 2 (initP false [none, some 0x61]) = none := by
  refine ⟨by decide, by decide, by decide⟩

/-- C10: on a single-peek stream, any sequence of public peek and read_char
calls from a fresh state keeps the result queue at length at most one. -/
theorem c10_single_peek_queue_bound (lossy : Bool) (evts : ByteEvents)
    (ops : List POp) :
    (runP ops (initP lossy evts)).buffer.length ≤ 1 := by
  have step : ∀ (op : POp) (s : PState), s.buffer.length ≤ 1 →
      (applyP op s).buffer.length ≤ 1 := by
    intro op s hs
    cases op with
    | peekOp =>
      rcases s with ⟨buf, pos, ev, lo⟩
      cases buf with
      | nil => simp [applyP, peekP, readCharP, popRead, streamRead]
      | cons b rest =>
        cases rest with
        | nil => simp [applyP, peekP]
        | cons b2 rest2 =>
          simp only [List.length_cons] at hs
          omega
    | readOp =>
      rcases s with ⟨buf, pos, ev, lo⟩
      cases buf with
      | nil => simp [applyP, readCharP, popRead, streamRead]
      | cons b rest =>
        simp only [List.length_cons] at hs
        simp [applyP, readCharP, popRead]
        omega
  have gen : ∀ (l : List POp) (s : PState), s.buffer.length ≤ 1 →
      (runP l s).buffer.length ≤ 1 := by
    intro l
    induction l with
    | nil => intro s hs; exact hs
    | cons op l ih => intro s hs; exact ih _ (step op s hs)
  exact gen ops _ (by simp [initP])


/-! Multi-peek window lemmas. -/

/-- Default result used only to express Rust indexing with getD. -/
def dfltRes : CSResult := Except.error CharacterError.noBytesRead

theorem drop_getD_cons (l : List CSResult) (i : Nat) (h : i < l.length) :
    l.drop i = l.getD i dfltRes :: l.drop (i + 1) := by
  rw [List.getD_eq_getElem _ _ h]
  exact List.drop_eq_getElem_cons h

theorem take_succ_getD (l : List CSResult) (n : Nat) (h : n < l.length) :
    l.take (n + 1) = l.take n ++ [l.getD n dfltRes] := by
  rw [List.take_succ, List.getElem?_eq_getElem h, List.getD_eq_getElem _ _ h]
  rfl


theorem peekMN_succ (n : Nat) (s : PState) :
    peekMN (n + 1) s =
      (peekM s).bind fun p => (peekMN n p.2).map fun q => (p.1 :: q.1, q.2) := rfl

theorem peekM_cached (s : PState) (h : s.position < s.buffer.length) :
    peekM s = some (some (s.buffer.getD s.position dfltRes),
      { s with position := s.position + 1 }) := by
  unfold peekM
  rw [if_pos h]
  rfl

theorem peekM_fresh_nbr (s sE : PState) (h : ¬ s.position < s.buffer.length)
    (hsr : streamRead s = (Except.error CharacterError.noBytesRead, sE)) :
    peekM s = some (none, { sE with position := s.position + 1 }) := by
  unfold peekM
  rw [if_neg h]
  simp [hsr]

theorem peekM_fresh_push (s sE : PState) (hpe : s.position = s.buffer.length)
    (o : CSResult) (hsr : streamRead s = (o, sE))
    (hno : o ≠ Except.error CharacterError.noBytesRead) :
    peekM s = some (some o,
      { sE with buffer := sE.buffer ++ [o], position := s.position + 1 }) := by
  have hbuf : sE.buffer = s.buffer := by
    have h2 : (streamRead s).2.buffer = sE.buffer := by rw [hsr]
    rw [← h2]
    rfl
  have hlt : s.position < (sE.buffer ++ [o]).length := by
    rw [List.length_append, hbuf]
    simp only [List.length_singleton]
    omega
  have hget : (sE.buffer ++ [o]).getD s.position
      (Except.error CharacterError.noBytesRead) = o := by
    rw [List.getD_eq_getElem _ _ hlt]
    exact List.getElem_concat_length sE.buffer o s.position (by rw [hbuf, ← hpe]) hlt
  unfold peekM
  rw [if_neg (by omega)]
  simp only [hsr]
  rw [if_neg hno, if_pos hlt, hget]

theorem peekMN_length (n : Nat) : ∀ (s : PState) (rs : List (Option CSResult))
    (s2 : PState), peekMN n s = some (rs, s2) → rs.length = n := by
  induction n with
  | zero =>
    intro s rs s2 h
    simp only [peekMN] at h
    injection h with h1
    injection h1 with ha hb
    rw [← ha]
    rfl
  | succ n ih =>
    intro s rs s2 h
    rw [peekMN_succ] at h
    cases hm : peekM s with
    | none => rw [hm] at h; simp at h
    | some p =>
      rw [hm] at h
      simp only [Option.some_bind] at h
      cases hn : peekMN n p.2 with
      | none => rw [hn] at h; simp at h
      | some q =>
        rw [hn] at h
        simp only [Option.map_some'] at h
        injection h with h1
        injection h1 with ha hb
        rw [← ha, List.length_cons, ih p.2 q.1 q.2 (by rw [hn])]

theorem peekMN_add (m n : Nat) : ∀ (s : PState), peekMN (m + n) s =
    (peekMN m s).bind fun p =>
      (peekMN n p.2).map fun q => (p.1 ++ q.1, q.2) := by
  induction m with
  | zero =>
    intro s
    rw [Nat.zero_add]
    show peekMN n s = (some ([], s)).bind fun p =>
      (peekMN n p.2).map fun q => (p.1 ++ q.1, q.2)
    rw [Option.some_bind]
    cases hq : peekMN n s with
    | none => simp
    | some q => simp
  | succ m ih =>
    intro s
    rw [show m + 1 + n = (m + n) + 1 from by omega, peekMN_succ, peekMN_succ]
    cases hm : peekM s with
    | none => simp
    | some p =>
      simp only [Option.some_bind]
      rw [ih p.2]
      cases hn : peekMN m p.2 with
      | none => simp
      | some q =>
        simp only [Option.some_bind, Option.map_some']
        cases hq : peekMN n q.2 with
        | none => simp
        | some t => simp

theorem peekMN_cached (n : Nat) : ∀ (s : PState),
    s.position + n ≤ s.buffer.length →
    peekMN n s = some (((s.buffer.drop s.position).take n).map some,
      { s with position := s.position + n }) := by
  induction n with
  | zero =>
    intro s h
    show some ([], s) = _
    rw [List.take_zero, List.map_nil, Nat.add_zero]
  | succ n ih =>
    intro s h
    have hlt : s.position < s.buffer.length := by omega
    rw [peekMN_succ, peekM_cached s hlt, Option.some_bind]
    have ih2 := ih { s with position := s.position + 1 } (by simp; omega)
    simp only at ih2
    rw [ih2, Option.map_some']
    rw [drop_getD_cons s.buffer s.position hlt, List.take_succ_cons, List.map_cons]
    have hpos : s.position + 1 + n = s.position + (n + 1) := by omega
    rw [hpos]


/-- A successful run of n multi-peeks from a cursor inside the queue bounds:
the cursor moves forward by n and stays in bounds, the queue only grows at
the tail, the lossy flag is untouched, and the results are the n queue
entries from the old cursor on, read off the final queue. -/
theorem peekMN_good (n : Nat) : ∀ (s : PState) (rs : List (Option CSResult))
    (s2 : PState),
    s.position ≤ s.buffer.length →
    peekMN n s = some (rs, s2) →
    (∀ r ∈ rs, r.isSome = true) →
    s2.position = s.position + n ∧
    s2.position ≤ s2.buffer.length ∧
    s2.lossy = s.lossy ∧
    (∃ ext, s2.buffer = s.buffer ++ ext) ∧
    rs = ((s2.buffer.drop s.position).take n).map some := by
  induction n with
  | zero =>
    intro s rs s2 hp hpk hsome
    simp only [peekMN] at hpk
    injection hpk with h1
    injection h1 with ha hb
    subst hb
    refine ⟨by omega, hp, rfl, ⟨[], by rw [List.append_nil]⟩, ?_⟩
    rw [← ha, List.take_zero, List.map_nil]
  | succ n ih =>
    intro s rs s2 hp hpk hsome
    rw [peekMN_succ] at hpk
    cases hm : peekM s with
    | none => rw [hm] at hpk; simp at hpk
    | some p =>
      rw [hm] at hpk
      simp only [Option.some_bind] at hpk
      cases hn : peekMN n p.2 with
      | none => rw [hn] at hpk; simp at hpk
      | some q =>
        rw [hn] at hpk
        simp only [Option.map_some'] at hpk
        injection hpk with h1
        injection h1 with ha hb
        have hsome1 : ∀ r ∈ q.1, r.isSome = true := by
          intro r hr
          exact hsome r (by rw [← ha]; exact List.mem_cons_of_mem _ hr)
        by_cases hc : s.position < s.buffer.length
        · rw [peekM_cached s hc] at hm
          injection hm with h2
          obtain ⟨g1, g2, g3, ⟨ext1, g4⟩, g5⟩ :=
            ih p.2 q.1 q.2 (by rw [← h2]; simp; omega) (by rw [hn]) hsome1
          rw [← h2] at g1 g3 g4
          simp only at g1 g3 g4
          have hlen2 : s.position < s2.buffer.length := by
            rw [← hb, g4, List.length_append]
            omega
          refine ⟨by rw [← hb]; omega, by rw [← hb]; exact g2, by rw [← hb, g3],
            ⟨ext1, by rw [← hb, g4]⟩, ?_⟩
          have hgetD : s2.buffer.getD s.position dfltRes =
              s.buffer.getD s.position dfltRes := by
            rw [← hb, g4]
            exact List.getD_append _ _ _ _ hc
          rw [← ha, drop_getD_cons s2.buffer s.position hlen2, List.take_succ_cons,
            List.map_cons, hgetD]
          have hhd : p.1 = some (s.buffer.getD s.position dfltRes) := by
            rw [← h2]
          rw [hhd, ← hb]
          rw [g5, ← h2]
        · have hpe : s.position = s.buffer.length := by omega
          rcases hsr : streamRead s with ⟨o, sE⟩
          have hbufE : sE.buffer = s.buffer := by
            have hx : (streamRead s).2.buffer = sE.buffer := by rw [hsr]
            rw [← hx]
            rfl
          have hlossyE : sE.lossy = s.lossy := by
            have hx : (streamRead s).2.lossy = sE.lossy := by rw [hsr]
            rw [← hx]
            rfl
          by_cases hno : o = Except.error CharacterError.noBytesRead
          · subst hno
            rw [peekM_fresh_nbr s sE hc hsr] at hm
            injection hm with h2
            have : p.1 = none := by rw [← h2]
            have hbad := hsome p.1 (by rw [← ha]; exact List.mem_cons_self _ _)
            rw [this] at hbad
            simp at hbad
          · rw [peekM_fresh_push s sE hpe o hsr hno] at hm
            injection hm with h2
            have hp2pos : p.2.position ≤ p.2.buffer.length := by
              rw [← h2]
              simp only
              rw [List.length_append, hbufE]
              simp only [List.length_singleton]
              omega
            obtain ⟨g1, g2, g3, ⟨ext1, g4⟩, g5⟩ :=
              ih p.2 q.1 q.2 hp2pos (by rw [hn]) hsome1
            rw [← h2] at g1 g3 g4
            simp only at g1 g3 g4
            rw [hbufE] at g4
            rw [hlossyE] at g3
            have hlen2 : s.position < s2.buffer.length := by
              rw [← hb, g4, List.length_append, List.length_append]
              simp only [List.length_singleton]
              omega
            refine ⟨by rw [← hb]; omega, by rw [← hb]; exact g2, by rw [← hb, g3],
              ⟨[o] ++ ext1, by rw [← hb, g4, List.append_assoc]⟩, ?_⟩
            have hgetD : s2.buffer.getD s.position dfltRes = o := by
              rw [← hb, g4, List.getD_append _ _ _ _
                (by rw [List.length_append]; simp only [List.length_singleton]; omega),
                List.getD_append_right _ _ _ _ (by omega), hpe]
              simp
            rw [← ha, drop_getD_cons s2.buffer s.position hlen2, List.take_succ_cons,
              List.map_cons, hgetD]
            have hhd : p.1 = some o := by rw [← h2]
            rw [hhd, ← hb]
            rw [g5, ← h2]


theorem peekMN_one (s : PState) (r : Option CSResult) (s' : PState)
    (h : peekM s = some (r, s')) : peekMN 1 s = some ([r], s') := by
  show (peekM s).bind _ = _
  rw [h]
  simp [peekMN]

/-- C7: from a multi-peek stream at its consumption point, if K+1 peeks all
succeed, returning the results w, then the first K peeks return the window
of the first K results, ending in a state s1; reset_peek followed by K peeks
replays exactly that window from the cache and ends in the same state s1; a
read_char on s1 then returns the first result of w, dequeuing exactly it;
and K further peeks return the window shifted forward by exactly one
position (the tail of w). -/
theorem c7_multi_peek_window (K : Nat) (hK : 1 ≤ K) (s0 : PState)
    (h0 : s0.position = 0) (w : List CSResult) (sw : PState)
    (hw : peekMN (K + 1) s0 = some (w.map some, sw)) :
    ∃ c cs s1 s3 s4,
      w = c :: cs ∧
      peekMN K s0 = some ((w.take K).map some, s1) ∧
      peekMN K (reset_peek s1) = some ((w.take K).map some, s1) ∧
      readCharM s1 = (c, s3) ∧
      peekMN K s3 = some (cs.map some, s4) := by
  obtain ⟨K', rfl⟩ : ∃ n, K = n + 1 := ⟨K - 1, by omega⟩
  have hlenw : w.length = K' + 1 + 1 := by
    have hl := peekMN_length (K' + 1 + 1) s0 (w.map some) sw hw
    simpa using hl
  obtain ⟨c, cs, rfl⟩ : ∃ c cs, w = c :: cs := by
    cases w with
    | nil => simp at hlenw
    | cons a b => exact ⟨a, b, rfl⟩
  have hcslen : cs.length = K' + 1 := by simpa using hlenw
  rw [peekMN_add (K' + 1) 1 s0] at hw
  cases h1 : peekMN (K' + 1) s0 with
  | none => rw [h1] at hw; simp at hw
  | some p1 =>
    rw [h1] at hw
    simp only [Option.some_bind] at hw
    cases h2 : peekMN 1 p1.2 with
    | none => rw [h2] at hw; simp at hw
    | some p2 =>
      rw [h2] at hw
      simp only [Option.map_some'] at hw
      injection hw with hw1
      injection hw1 with hwa hwb
      have hl1 : p1.1.length = K' + 1 :=
        peekMN_length (K' + 1) s0 p1.1 p1.2 (by rw [h1])
      have hsplit1 : p1.1 = ((c :: cs).map some).take (K' + 1) := by
        rw [← hwa, ← hl1, List.take_left]
      have hsplit2 : p2.1 = ((c :: cs).map some).drop (K' + 1) := by
        rw [← hwa, ← hl1, List.drop_left]
      have hsome1 : ∀ r ∈ p1.1, r.isSome = true := by
        intro r hr
        have hr2 : r ∈ p1.1 ++ p2.1 := List.mem_append_left _ hr
        rw [hwa] at hr2
        obtain ⟨a, _, rfl⟩ := List.mem_map.mp hr2
        rfl
      obtain ⟨g1, g2, g3, ⟨ext1, g4⟩, g5⟩ :=
        peekMN_good (K' + 1) s0 p1.1 p1.2 (by omega) (by rw [h1]) hsome1
      rw [h0, List.drop_zero] at g5
      rw [h0, Nat.zero_add] at g1
      have hmapinj := List.map_injective_iff.mpr (Option.some_injective CSResult)
      have hBtake : p1.2.buffer.take (K' + 1) = (c :: cs).take (K' + 1) := by
        apply hmapinj
        rw [← g5, hsplit1, List.map_take]
      have hKlen : K' + 1 ≤ p1.2.buffer.length := by rw [← g1]; exact g2
      obtain ⟨Brest, hB⟩ : ∃ T, p1.2.buffer = c :: T := by
        cases hBc : p1.2.buffer with
        | nil => rw [hBc] at hKlen; simp at hKlen
        | cons b0 T =>
          refine ⟨T, ?_⟩
          have ht : (b0 :: T).take (K' + 1) = (c :: cs).take (K' + 1) := by
            rw [← hBc]
            exact hBtake
          rw [List.take_succ_cons, List.take_succ_cons] at ht
          have hbc : b0 = c := by
            have hh := congrArg List.head? ht
            simp at hh
            exact hh
          rw [hbc]
      have hBrest_take : Brest.take K' = cs.take K' := by
        have ht : (c :: Brest).take (K' + 1) = (c :: cs).take (K' + 1) := by
          rw [← hB]
          exact hBtake
        rw [List.take_succ_cons, List.take_succ_cons] at ht
        have hh := congrArg List.tail ht
        simpa using hh
      have hc2 : peekMN (K' + 1) s0 =
          some (((c :: cs).take (K' + 1)).map some, p1.2) := by
        rw [h1, show (((c :: cs).take (K' + 1)).map some) = p1.1 from by
          rw [hsplit1, List.map_take]]
      have hc3 : peekMN (K' + 1) (reset_peek p1.2) =
          some (((c :: cs).take (K' + 1)).map some, p1.2) := by
        have hcach := peekMN_cached (K' + 1) (reset_peek p1.2)
          (by simp [reset_peek]; omega)
        rw [hcach]
        have e1 : (reset_peek p1.2).buffer = p1.2.buffer := rfl
        have e2 : (reset_peek p1.2).position = 0 := rfl
        have e4 : (reset_peek p1.2).evts = p1.2.evts := rfl
        have e5 : (reset_peek p1.2).lossy = p1.2.lossy := rfl
        rw [e1, e2, e4, e5, List.drop_zero, hBtake, Nat.zero_add, ← g1]
      have hread : readCharM p1.2 = (c, { p1.2 with buffer := Brest, position := 0 }) := by
        show popRead (reset_peek p1.2) = _
        unfold popRead
        rw [show (reset_peek p1.2).buffer = c :: Brest from hB]
        rfl
      have h2' : (peekM p1.2).bind
          (fun p => (peekMN 0 p.2).map fun q => (p.1 :: q.1, q.2)) = some p2 := h2
      cases hpm : peekM p1.2 with
      | none => rw [hpm] at h2'; simp at h2'
      | some pp =>
        rw [hpm] at h2'
        simp only [Option.some_bind, peekMN, Option.map_some'] at h2'
        injection h2' with h2''
        have hzlen : ((c :: cs).drop (K' + 1)).length = 1 := by
          rw [List.length_drop, hlenw]
          omega
        obtain ⟨z, hz⟩ : ∃ z, (c :: cs).drop (K' + 1) = [z] := by
          cases hd : (c :: cs).drop (K' + 1) with
          | nil => rw [hd] at hzlen; simp at hzlen
          | cons z t =>
            cases t with
            | nil => exact ⟨z, rfl⟩
            | cons t1 t2 => rw [hd] at hzlen; simp at hzlen
        have hppz : pp.1 = some z := by
          have hx2 : pp.1 :: ([] : List (Option CSResult)) = [some z] := by
            have e : (pp.1 :: ([] : List (Option CSResult))) = p2.1 := by
              rw [← h2'']
            rw [e, hsplit2, ← List.map_drop, hz]
            rfl
          exact (List.cons_eq_cons.mp hx2).1
        have hczdrop : cs.drop K' = [z] := by
          rw [← hz]
          rfl
        by_cases hcase : K' + 1 < p1.2.buffer.length
        · have hposlt : p1.2.position < p1.2.buffer.length := by omega
          rw [peekM_cached p1.2 hposlt] at hpm
          injection hpm with hx
          have hBz : p1.2.buffer.getD (K' + 1) dfltRes = z := by
            have e : pp.1 = some (p1.2.buffer.getD p1.2.position dfltRes) := by
              rw [← hx]
            rw [hppz] at e
            injection e with e2
            rw [g1] at e2
            exact e2.symm
          have hBrestlen : K' + 1 ≤ Brest.length := by
            have hbl : p1.2.buffer.length = Brest.length + 1 := by
              rw [hB]
              rfl
            omega
          have hfin := peekMN_cached (K' + 1)
            { p1.2 with buffer := Brest, position := 0 } (by simp; omega)
          have htake : Brest.take (K' + 1) = cs := by
            have hK'lt : K' < Brest.length := by omega
            rw [take_succ_getD Brest K' hK'lt, hBrest_take]
            have hgd : Brest.getD K' dfltRes = z := by
              have e4 : p1.2.buffer.getD (K' + 1) dfltRes =
                  Brest.getD K' dfltRes := by
                rw [hB]
                rfl
              rw [← e4, hBz]
            rw [hgd, ← hczdrop, List.take_append_drop]
          refine ⟨c, cs, p1.2, { p1.2 with buffer := Brest, position := 0 },
            { p1.2 with buffer := Brest, position := 0 + (K' + 1) },
            rfl, h1.symm.trans hc2, hc3, hread, ?_⟩
          rw [hfin]
          have e1 : ({ p1.2 with buffer := Brest, position := 0 } : PState).buffer
              = Brest := rfl
          have e2 : ({ p1.2 with buffer := Brest, position := 0 } : PState).position
              = 0 := rfl
          rw [e1, e2, List.drop_zero, htake]
        · have hBlen : p1.2.buffer.length = K' + 1 := by omega
          have hpe2 : p1.2.position = p1.2.buffer.length := by rw [g1, hBlen]
          rcases hsr2 : streamRead p1.2 with ⟨o2, sE2⟩
          by_cases ho2 : o2 = Except.error CharacterError.noBytesRead
          · subst ho2
            rw [peekM_fresh_nbr p1.2 sE2 (by omega) hsr2] at hpm
            injection hpm with hx
            have hnone : pp.1 = none := by rw [← hx]
            rw [hppz] at hnone
            simp at hnone
          · rw [peekM_fresh_push p1.2 sE2 hpe2 o2 hsr2 ho2] at hpm
            injection hpm with hx
            have ho2z : o2 = z := by
              have e : pp.1 = some o2 := by rw [← hx]
              rw [hppz] at e
              injection e with e2
              exact e2.symm
            have ho2r : (readChar p1.2.lossy p1.2.evts).1 = o2 :=
              congrArg Prod.fst hsr2
            have hBrlen : Brest.length = K' := by
              have hbl : p1.2.buffer.length = Brest.length + 1 := by
                rw [hB]
                rfl
              omega
            have hfin1 := peekMN_cached K'
              { p1.2 with buffer := Brest, position := 0 } (by simp; omega)
            have ho2r2 : (streamRead { p1.2 with buffer := Brest, position := 0 + K' }).1 = o2 := ho2r
            have hsr3 : streamRead { p1.2 with buffer := Brest, position := 0 + K' } =
                (o2, (streamRead { p1.2 with buffer := Brest, position := 0 + K' }).2) := by
              rw [← ho2r2]
            have hpush := peekM_fresh_push
              { p1.2 with buffer := Brest, position := 0 + K' }
              (streamRead { p1.2 with buffer := Brest, position := 0 + K' }).2
              (by simp [hBrlen]) o2 hsr3 ho2
            have hone := peekMN_one _ _ _ hpush
            obtain ⟨s4v, hone2⟩ :
                ∃ x, peekMN 1 { p1.2 with buffer := Brest, position := 0 + K' } =
                  some ([some o2], x) := ⟨_, hone⟩
            refine ⟨c, cs, p1.2, { p1.2 with buffer := Brest, position := 0 },
              s4v, rfl, h1.symm.trans hc2, hc3, hread, ?_⟩
            rw [peekMN_add K' 1 { p1.2 with buffer := Brest, position := 0 },
              hfin1]
            simp only [Option.some_bind]
            rw [hone2]
            simp only [Option.map_some']
            have hres2 : ((({ p1.2 with buffer := Brest, position := 0 } :
                PState).buffer.drop ({ p1.2 with buffer := Brest, position := 0 } :
                PState).position).take K').map some ++ [some o2] = cs.map some := by
              have e1 : ({ p1.2 with buffer := Brest, position := 0 } : PState).buffer
                  = Brest := rfl
              have e2 : ({ p1.2 with buffer := Brest, position := 0 } : PState).position
                  = 0 := rfl
              rw [e1, e2, List.drop_zero, ← hBrlen, List.take_length, ho2z]
              have hbrest_cs : Brest = cs.take K' := by
                rw [← List.take_length Brest, hBrlen, hBrest_take]
              rw [hbrest_cs,
                show [some z] = List.map some [z] from rfl,
                ← List.map_append, ← hczdrop, List.take_append_drop]
            rw [hres2]


/-- Witness for c7_multi_peek_window with K = 1 over the bytes 61 62 63:
two peeks decode a and b; the window of one result replays after a reset,
and shifts by one after the read_char. -/
theorem c7_multi_peek_window_witness :
    (1 ≤ 1) ∧
    (initP false ([0x61, 0x62, 0x63].map some)).position = 0 ∧
    peekMN (1 + 1) (initP false ([0x61, 0x62, 0x63].map some)) =
      some (([Except.ok 0x61, Except.ok 0x62] : List CSResult).map some,
        { buffer := [Except.ok 0x61, Except.ok 0x62], position := 2, evts := [some 0x63], lossy := false }) ∧
    (∃ c cs s1 s3 s4,
      ([Except.ok 0x61, Except.ok 0x62] : List CSResult) = c :: cs ∧
      peekMN 1 (initP false ([0x61, 0x62, 0x63].map some)) =
        some ((([Except.ok 0x61, Except.ok 0x62] : List CSResult).take 1).map some, s1) ∧
      peekMN 1 (reset_peek s1) =
        some ((([Except.ok 0x61, Except.ok 0x62] : List CSResult).take 1).map some, s1) ∧
      readCharM s1 = (c, s3) ∧
      peekMN 1 s3 = some (cs.map some, s4)) :=
  ⟨le_refl 1, rfl, by decide,
    c7_multi_peek_window 1 (le_refl 1) (initP false ([0x61, 0x62, 0x63].map some)) rfl
      [Except.ok 0x61, Except.ok 0x62]
      { buffer := [Except.ok 0x61, Except.ok 0x62], position := 2, evts := [some 0x63], lossy := false }
      (by decide)⟩

/-! The iterator: CharacterIterator over any CharStream implementor.  The
stream is modelled generically as a state type with a pure step function
returning one decode result per call, matching the Rust trait bound. -/

/-- INTERRUPTED_MAXIMUM from character_iter.rs. -/
def INTERRUPTED_MAXIMUM : Nat := 5

/-- CharacterIterator state: the owned stream, the consecutive-interruption
counter, and the one-way done flag. -/
structure CIter (σ : Type) where
  stream : σ
  interruptedCount : Nat
  done : Bool
deriving DecidableEq, Repr

/-- CharacterIterator::new. -/
def newIter {σ : Type} (stream : σ) : CIter σ :=
  { stream := stream, interruptedCount := 0, done := false }

/-- The counter reset on success: if interrupted_count is positive, set it
to 0 (leaving 0 unchanged otherwise, as the Rust guard does). -/
def resetCount (n : Nat) : Nat := if 0 < n then 0 else n

/-- Iterator::next for CharacterIterator: None when done; a character resets
the counter and is yielded; NoBytesRead and UnexpectedEof end the iteration;
an Interrupted io error retries while the counter is at most
INTERRUPTED_MAXIMUM, else silently ends; any other error is yielded. -/
def nextIter {σ : Type} (step : σ → CSResult × σ) (it : CIter σ) :
    Option CSResult × CIter σ :=
  if it.done then (none, it)
  else
    match step it.stream with
    | (Except.ok character, s1) =>
      (some (Except.ok character),
        { it with stream := s1, interruptedCount := resetCount it.interruptedCount })
    | (Except.error CharacterError.noBytesRead, s1) =>
      (none, { it with stream := s1, done := true })
    | (Except.error (CharacterError.ioError bytes kind), s1) =>
      match kind with
      | IoKind.interrupted =>
        if _hi : it.interruptedCount ≤ INTERRUPTED_MAXIMUM then
          nextIter step
            { it with stream := s1, interruptedCount := it.interruptedCount + 1 }
        else (none, { it with stream := s1, done := true })
      | IoKind.unexpectedEof => (none, { it with stream := s1, done := true })
      | IoKind.otherKind =>
        (some (Except.error (CharacterError.ioError bytes kind)),
          { it with stream := s1 })
    | (Except.error (CharacterError.other bytes msg), s1) =>
      (some (Except.error (CharacterError.other bytes msg)),
        { it with stream := s1 })
termination_by INTERRUPTED_MAXIMUM + 1 - it.interruptedCount
decreasing_by
  simp_wf
  omega

/-- n successive next calls on the iterator, collecting each outcome. -/
def nextN {σ : Type} (step : σ → CSResult × σ) : Nat → CIter σ →
    List (Option CSResult) × CIter σ
  | 0, it => ([], it)
  | n + 1, it =>
    let p := nextIter step it
    let q := nextN step n p.2
    (p.1 :: q.1, q.2)


theorem nextIter_done {σ : Type} (step : σ → CSResult × σ) (it : CIter σ)
    (h : it.done = true) : nextIter step it = (none, it) := by
  unfold nextIter
  rw [if_pos h]

/-- C8: once the iterator is in the terminal state, every subsequent request
returns no element and leaves the whole iterator state, the owned stream
included, untouched: no further reads are performed and the done flag is
never cleared. -/
theorem c8_terminal_absorbing {σ : Type} (step : σ → CSResult × σ)
    (it : CIter σ) (h : it.done = true) (n : Nat) :
    nextN step n it = (List.replicate n none, it) := by
  induction n with
  | zero => rfl
  | succ n ih =>
    simp only [nextN]
    rw [nextIter_done step it h]
    simp [ih, List.replicate_succ]

/-- Witness for c8_terminal_absorbing: a done iterator over a read-counting
source performs no reads across three next calls. -/
theorem c8_terminal_absorbing_witness :
    (({ stream := 7, interruptedCount := 6, done := true } : CIter Nat).done = true) ∧
    nextN (fun s : Nat => (Except.error CharacterError.noBytesRead, s + 1)) 3
      { stream := 7, interruptedCount := 6, done := true } =
      (List.replicate 3 none, { stream := 7, interruptedCount := 6, done := true }) :=
  ⟨rfl, c8_terminal_absorbing
    (fun s : Nat => (Except.error CharacterError.noBytesRead, s + 1))
    { stream := 7, interruptedCount := 6, done := true } rfl 3⟩

/-- A source that fails every read with a transient Interrupted io error; its
state counts the read attempts performed. -/
def interruptedStep (s : Nat) : CSResult × Nat :=
  (Except.error (CharacterError.ioError [] IoKind.interrupted), s + 1)

/-- C4 counterexample: with the retry maximum 5, a single next call on a
source failing every read with Interrupted performs 7 read attempts, not 6,
before entering the terminal state with no element: the comparison
interrupted_count <= INTERRUPTED_MAXIMUM admits max + 1 increments (the
stream field counts the reads performed). -/
theorem c4_six_attempts_counterexample :
    nextIter interruptedStep { stream := 0, interruptedCount := 0, done := false } =
      (none, { stream := 7, interruptedCount := 6, done := true }) ∧ (7 : Nat) ≠ 6 := by
  constructor
  · simp [nextIter, interruptedStep, INTERRUPTED_MAXIMUM, resetCount]
  · decide

/-- C4 (amended): on a source failing every read with a transient
interruption and the retry maximum 5, the iterator yields zero elements,
enters the terminal state, and performs exactly 7 total read attempts before
giving up; further requests yield nothing and read nothing. -/
theorem c4_interrupted_gives_up :
    nextIter interruptedStep { stream := 0, interruptedCount := 0, done := false } =
      (none, { stream := 7, interruptedCount := 6, done := true }) ∧
    nextIter interruptedStep { stream := 7, interruptedCount := 6, done := true } =
      (none, { stream := 7, interruptedCount := 6, done := true }) := by
  constructor
  · simp [nextIter, interruptedStep, INTERRUPTED_MAXIMUM, resetCount]
  · simp [nextIter]

/-- A pure source replaying a fixed list of decode results, then clean
exhaustion. -/
def listStep (l : List CSResult) : CSResult × List CSResult :=
  match l with
  | [] => (Except.error CharacterError.noBytesRead, [])
  | r :: rest => (r, rest)

/-- The stream of c5_counter_not_reset_counterexample: one transient
interruption, then a decode error. -/
def c5stream : List CSResult :=
  [Except.error (CharacterError.ioError [] IoKind.interrupted),
    Except.error (CharacterError.other [1] "boom")]

/-- C5 counterexample: after one absorbed interruption the counter is 1;
yielding the following decode error leaves the counter at 1 instead of
resetting it to 0 (only a successful character resets the counter). -/
theorem c5_counter_not_reset_counterexample :
    nextIter listStep { stream := c5stream, interruptedCount := 0, done := false } =
      (some (Except.error (CharacterError.other [1] "boom")),
        { stream := [], interruptedCount := 1, done := false }) ∧ (1 : Nat) ≠ 0 := by
  constructor
  · simp [nextIter, listStep, c5stream, INTERRUPTED_MAXIMUM]
  · decide

/-- Errors that next yields as elements: any decode error, and any io error
that is neither Interrupted nor UnexpectedEof. -/
def yieldable : CharacterError → Prop
  | CharacterError.noBytesRead => False
  | CharacterError.ioError _ k => k ≠ IoKind.interrupted ∧ k ≠ IoKind.unexpectedEof
  | CharacterError.other _ _ => True

instance (e : CharacterError) : Decidable (yieldable e) :=
  match e with
  | CharacterError.noBytesRead => inferInstanceAs (Decidable False)
  | CharacterError.ioError _ k =>
    inferInstanceAs (Decidable (k ≠ IoKind.interrupted ∧ k ≠ IoKind.unexpectedEof))
  | CharacterError.other _ _ => inferInstanceAs (Decidable True)

/-- C5 (amended): while active, a yieldable error (an io error that is not a
transient interruption or mid-sequence end-of-input, or any decode error) is
returned as an element and the iterator stays active, but the
consecutive-interruption counter is left unchanged, not reset to 0: the
counter resets only on a successful character. -/
theorem c5_yield_error_stays_active {σ : Type} (step : σ → CSResult × σ)
    (it : CIter σ) (hd : it.done = false) (e : CharacterError) (s1 : σ)
    (hs : step it.stream = (Except.error e, s1)) (hy : yieldable e) :
    nextIter step it = (some (Except.error e),
      { stream := s1, interruptedCount := it.interruptedCount, done := false }) := by
  unfold nextIter
  rw [if_neg (by simp [hd])]
  cases e with
  | noBytesRead => exact False.elim hy
  | ioError bytes kind =>
    obtain ⟨h1, h2⟩ := hy
    rw [hs]
    cases kind with
    | interrupted => exact absurd rfl h1
    | unexpectedEof => exact absurd rfl h2
    | otherKind =>
      show (some (Except.error (CharacterError.ioError bytes IoKind.otherKind)),
        ({ it with stream := s1 } : CIter σ)) = _
      rw [show ({ it with stream := s1 } : CIter σ) =
        { stream := s1, interruptedCount := it.interruptedCount, done := false }
        from by rw [← hd]]
  | other bytes msg =>
    rw [hs]
    show (some (Except.error (CharacterError.other bytes msg)),
      ({ it with stream := s1 } : CIter σ)) = _
    rw [show ({ it with stream := s1 } : CIter σ) =
      { stream := s1, interruptedCount := it.interruptedCount, done := false }
      from by rw [← hd]]

/-- Witness for c5_yield_error_stays_active: an active iterator with counter
3 yields a decode error and keeps counter 3. -/
theorem c5_yield_error_stays_active_witness :
    (({ stream := [Except.error (CharacterError.other [1] "boom")],
        interruptedCount := 3, done := false } : CIter (List CSResult)).done = false) ∧
    listStep [Except.error (CharacterError.other [1] "boom")] =
      (Except.error (CharacterError.other [1] "boom"), []) ∧
    yieldable (CharacterError.other [1] "boom") ∧
    nextIter listStep
      { stream := [Except.error (CharacterError.other [1] "boom")],
        interruptedCount := 3, done := false } =
      (some (Except.error (CharacterError.other [1] "boom")),
        { stream := [], interruptedCount := 3, done := false }) :=
  ⟨rfl, rfl, trivial,
    c5_yield_error_stays_active listStep
      { stream := [Except.error (CharacterError.other [1] "boom")],
        interruptedCount := 3, done := false }
      rfl (CharacterError.other [1] "boom") [] rfl trivial⟩

end CharStreamRs
